import Mathlib

/-!
Shallow embedding of `src/network.py`, a distance-vector routing simulator:
the packet codec (`NetworkPacket.to_byte_S` / `NetworkPacket.from_byte_S`),
the routing table of `Router` and its construction, the distance-vector
merge performed by `Router.update_routes`, the flooding decision,
`Router.forward_packet`, and the per-pass queue processing of
`Router.process_queues`.

Conventions of the embedding:
* Python `dict`s become insertion-ordered association lists; `lk` models
  `d[k]` (with `none` for a raised `KeyError`) and `setK` models
  `d[k] = v` (an existing key keeps its position, a new key is appended).
* A Python function that can raise an uncaught exception is embedded as an
  `Option`-returning function; `none` models the exception escaping.
* Costs are natural numbers (the specification restricts attention to
  non-negative link costs); `999` is the sentinel the code uses for an
  unknown cost.
* `Router.update_routes` iterates over `self.rt_tbl_D.keys() | rvec.keys()`,
  a Python set whose iteration order is unspecified; the embedding fixes
  the first-occurrence order (current table keys first, then the new keys
  of the received vector).  The properties proved below do not depend on
  that choice.
* In the relaxation loop the code guards with `v is y`; `v` and `y` are
  drawn from iterating the same materialised set, where equal strings are
  the same object, so object identity coincides with string equality and
  the embedding uses `v = y`.
* `json.loads` is embedded by a parser for exactly the serialisations that
  `json.dumps` produces for these two-level integer tables, which are the
  only control payloads the system generates.
-/

/-- Lookup in an insertion-ordered association list: Python `d[k]` yields
`some` the stored value, `none` models a raised `KeyError`. -/
def lk {α : Type} : List (String × α) → String → Option α
  | [], _ => none
  | (k', v) :: rest, k => if k' = k then some v else lk rest k

/-- Update in an insertion-ordered association list, Python `d[k] = v`:
an existing key keeps its position, a new key is appended at the end. -/
def setK {α : Type} : List (String × α) → String → α → List (String × α)
  | [], k, v => [(k, v)]
  | (k', v') :: rest, k, v =>
    if k' = k then (k, v) :: rest else (k', v') :: setK rest k v

/-- One row of `Router.rt_tbl_D`: reporting router id to cost. -/
abbrev Row := List (String × Nat)

/-- The routing table `Router.rt_tbl_D`: destination id to row. -/
abbrev Table := List (String × Row)

/-- One value of `Router.cost_D`: interface number to link cost. -/
abbrev CostRow := List (Nat × Nat)

/-- The neighbour cost table `Router.cost_D`. -/
abbrev CostD := List (String × CostRow)

/-- Reads `table[a][b]`; `none` models a `KeyError` on either level. -/
def get2 (t : Table) (a b : String) : Option Nat :=
  (lk t a).bind (fun row => lk row b)

/-- Cost to destination `y` as recorded for the owning router, the
specification's `costToSelf`: `table[y][own]`, with the sentinel `999`
for a missing row or entry. -/
def selfCost (own : String) (t : Table) (y : String) : Nat :=
  (get2 t y own).getD 999

/-- Python `str.zfill w` for strings without a sign: left-pad with zeros
up to width `w`, leaving longer strings unchanged. -/
def zfill (w : Nat) (s : String) : String :=
  String.mk (List.replicate (w - s.length) '0' ++ s.data)

/-- Python `str.strip "0"` as used by `NetworkPacket.from_byte_S`:
removes zeros from BOTH ends of the string. -/
def strip0 (s : String) : String :=
  String.mk (((s.data.dropWhile (fun c => c == '0')).reverse.dropWhile
    (fun c => c == '0')).reverse)

/-- The packet object of `src/network.py`; the protocol tag is kept as the
string the code compares against ("data" or "control"). -/
structure NetworkPacket where
  dst : String
  prot_S : String
  data_S : String
deriving DecidableEq

/-- Encoding `NetworkPacket.to_byte_S` (lines 62-71): zero-filled
destination of width 5, one tag character, then the payload; `none`
models the raise on an unrecognised protocol string. -/
def to_byte_S (p : NetworkPacket) : Option String :=
  if p.prot_S = "data" then some (zfill 5 p.dst ++ "1" ++ p.data_S)
  else if p.prot_S = "control" then some (zfill 5 p.dst ++ "2" ++ p.data_S)
  else none

/-- Decoding `NetworkPacket.from_byte_S` (lines 75-86): the first five
characters are the destination, stripped of zeros on both ends, the sixth
is the tag; `none` models the raise on an unrecognised tag (which also
covers byte strings shorter than six characters). -/
def from_byte_S (s : String) : Option NetworkPacket :=
  let dst := strip0 (String.mk (s.data.take 5))
  let tag := (s.data.drop 5).take 1
  if tag = ['1'] then some ⟨dst, "data", String.mk (s.data.drop 6)⟩
  else if tag = ['2'] then some ⟨dst, "control", String.mk (s.data.drop 6)⟩
  else none

/-- The opening brace character, kept out of string literals. -/
def lbrace : Char := Char.ofNat 123

/-- The closing brace character, kept out of string literals. -/
def rbrace : Char := Char.ofNat 125

/-- Serialisation of one routing-table row exactly as `json.dumps`
renders a string-to-int dict. -/
def dumpsRow (row : Row) : String :=
  String.singleton lbrace ++
    String.intercalate ", "
      (row.map (fun p => "\"" ++ p.1 ++ "\": " ++ toString p.2)) ++
    String.singleton rbrace

/-- Serialisation of a routing table exactly as `json.dumps` renders the
nested dict `Router.rt_tbl_D`. -/
def dumps (t : Table) : String :=
  String.singleton lbrace ++
    String.intercalate ", "
      (t.map (fun p => "\"" ++ p.1 ++ "\": " ++ dumpsRow p.2)) ++
    String.singleton rbrace

/-- Digit accumulator for the number parser. -/
def parseNatAux : List Char → Nat → Nat × List Char
  | [], acc => (acc, [])
  | c :: rest, acc =>
    if c.isDigit then parseNatAux rest (acc * 10 + (c.toNat - 48))
    else (acc, c :: rest)

/-- Parses a non-empty digit run. -/
def parseNat : List Char → Option (Nat × List Char)
  | [] => none
  | c :: rest =>
    if c.isDigit then some (parseNatAux (c :: rest) 0) else none

/-- Parses a double-quoted key. -/
def parseKey : List Char → Option (String × List Char)
  | '"' :: rest =>
    match rest.dropWhile (fun c => c != '"') with
    | '"' :: r2 => some (String.mk (rest.takeWhile (fun c => c != '"')), r2)
    | _ => none
  | _ => none

/-- Consumes the ": " separator that `json.dumps` places after a key. -/
def parseColon : List Char → Option (List Char)
  | ':' :: ' ' :: rest => some rest
  | _ => none

/-- Parses the comma-separated entries of one serialised row, up to and
including its closing brace; duplicate keys keep the first position with
the last value, as in a Python dict. -/
def parseRowEntries : Nat → List Char → Row → Option (Row × List Char)
  | 0, _, _ => none
  | Nat.succ fuel, cs, acc =>
    match parseKey cs with
    | none => none
    | some (k, cs1) =>
      match parseColon cs1 with
      | none => none
      | some cs2 =>
        match parseNat cs2 with
        | none => none
        | some (n, cs3) =>
          match cs3 with
          | [] => none
          | c :: cs4 =>
            if c = rbrace then some (setK acc k n, cs4)
            else if c = ',' then
              match cs4 with
              | ' ' :: cs5 => parseRowEntries fuel cs5 (setK acc k n)
              | _ => none
            else none

/-- Parses one serialised row including its braces. -/
def parseRow (fuel : Nat) (cs : List Char) : Option (Row × List Char) :=
  match cs with
  | [] => none
  | c :: cs1 =>
    if c = lbrace then
      match cs1 with
      | [] => none
      | c2 :: cs2 =>
        if c2 = rbrace then some ([], cs2) else parseRowEntries fuel cs1 []
    else none

/-- Parses the comma-separated entries of a serialised table, up to and
including its closing brace. -/
def parseTableEntries : Nat → List Char → Table → Option (Table × List Char)
  | 0, _, _ => none
  | Nat.succ fuel, cs, acc =>
    match parseKey cs with
    | none => none
    | some (k, cs1) =>
      match parseColon cs1 with
      | none => none
      | some cs2 =>
        match parseRow fuel cs2 with
        | none => none
        | some (row, cs3) =>
          match cs3 with
          | [] => none
          | c :: cs4 =>
            if c = rbrace then some (setK acc k row, cs4)
            else if c = ',' then
              match cs4 with
              | ' ' :: cs5 => parseTableEntries fuel cs5 (setK acc k row)
              | _ => none
            else none

/-- Restriction of `json.loads` to the two-level integer tables that
`dumps` produces, the only control payloads the system generates; the
whole string must be consumed, anything else models a raised
`json.JSONDecodeError`. -/
def parseTable (s : String) : Option Table :=
  match s.data with
  | [] => none
  | c :: cs =>
    if c = lbrace then
      match cs with
      | [] => none
      | c2 :: cs2 =>
        if c2 = rbrace then (if cs2 = [] then some [] else none)
        else
          match parseTableEntries s.data.length cs [] with
          | none => none
          | some (t, rest) => if rest = [] then some t else none
    else none

/-- Python `key.startswith "R"`, the router-key test of
`Router.update_routes` and `Router.forward_packet`. -/
def startsR (s : String) : Bool :=
  match s.data with
  | [] => false
  | c :: _ => c == 'R'

/-- One row of the initial routing table, line 146 of `Router.__init__`:
the dict comprehension writes the key `self.name` once per cost entry, so
the row is the single pair of the own name and the last link cost. -/
def initRow (own : String) (cv : CostRow) : Row :=
  cv.foldl (fun row p => setK row own p.2) []

/-- Lines 146-147 of `Router.__init__`: one row per neighbour of the cost
table, then the own row is set to cost zero. -/
def initTable (own : String) (cost_D : CostD) : Table :=
  setK (cost_D.map (fun p => (p.1, initRow own p.2))) own [(own, 0)]

/-- Union of the key sets of the current table and the received vector,
Python `self.rt_tbl_D.keys() | rvec.keys()` (line 234), in
first-occurrence order. -/
def keysUnion (t rvec : Table) : List String :=
  t.map Prod.fst ++ (rvec.map Prod.fst).filter (fun k => (lk t k).isNone)

/-- One iteration of the first loop of `Router.update_routes` (lines
241-249): absorb the received entry for destination `dst` into the
table, creating a missing row on either side with the sentinel; the state
carries the table and the (locally mutated) received vector. -/
def absorbStep (own r : String) (st : Table × Table) (dst : String) :
    Option (Table × Table) :=
  let rv := if (lk st.2 dst).isSome then st.2 else setK st.2 dst [(r, 999)]
  let t := if (lk st.1 dst).isSome then st.1 else setK st.1 dst [(own, 999)]
  match (lk rv dst).bind (fun row => lk row r) with
  | none => none
  | some c =>
    match lk t dst with
    | none => none
    | some trow => some (setK t dst (setK trow r c), rv)

/-- Core of one relaxation step of `Router.update_routes` (lines 259-267)
after the row of `y` has been completed with the `v` entry: Bellman-Ford
update of `table[y][own]` by `table[v][own] + table[y][v]`. -/
def relaxCore (own y v : String) (b : Bool) (t0 : Table) (ycvec : Row) :
    Option (Table × Bool) :=
  match lk t0 v with
  | none => none
  | some vcvec =>
    match lk vcvec own, lk ycvec v, lk ycvec own with
    | some cv, some cyv, some cy =>
      if cv + cyv < cy then some (setK t0 y (setK ycvec own (cv + cyv)), true)
      else some (t0, b)
    | _, _, _ => none

/-- One relaxation step of `Router.update_routes` for the pair of
destination `y` and router `v`: reads the row of `y`, inserts the missing
`v` entry at the sentinel if needed, then runs the Bellman-Ford update. -/
def relaxStep (own y v : String) (st : Table × Bool) : Option (Table × Bool) :=
  match lk st.1 y with
  | none => none
  | some ycvec =>
    match lk ycvec v with
    | some _ => relaxCore own y v st.2 st.1 ycvec
    | none => relaxCore own y v st.2 (setK st.1 y (setK ycvec v 999)) (setK ycvec v 999)

/-- The full double relaxation loop of `Router.update_routes` (lines
252-267), skipping the pairs with `v` equal to `y`. -/
def relaxAll (own : String) (keys routers : List String) (t : Table) :
    Option (Table × Bool) :=
  keys.foldlM
    (fun st y => routers.foldlM
      (fun st2 v => if v = y then pure st2 else relaxStep own y v st2) st)
    (t, false)

/-- The table-merge part of `Router.update_routes` (lines 234-267): absorb
the received vector of router `r`, then run the Bellman-Ford relaxation;
returns the new table and whether any self-cost changed.  `none` models an
uncaught `KeyError`. -/
def merge (own r : String) (t rvec : Table) : Option (Table × Bool) :=
  match (keysUnion t rvec).foldlM (absorbStep own r) (t, rvec) with
  | none => none
  | some st =>
    relaxAll own (keysUnion t rvec) ((keysUnion t rvec).filter startsR) st.1

/-- The byte string `Router.send_routes` (lines 211-220) pushes on an
interface: the encoding of `NetworkPacket(0, "control", own + dumps t)`;
the protocol tag is valid, so the fallback of `getD` is never taken. -/
def send_routes_bytes (own : String) (t : Table) : String :=
  (to_byte_S ⟨"0", "control", own ++ dumps t⟩).getD ""

/-- Embedding of `Router.update_routes` (lines 226-272): re-serialise the
packet (`pbody = str(p)`), read the source router id from two characters,
parse the received vector from the JSON remainder, merge, and if anything
changed emit one routing update per interface.  `none` models an uncaught
exception. -/
def update_routes (own : String) (numIntf : Nat) (t : Table)
    (p : NetworkPacket) : Option (Table × Bool × List (Nat × String)) :=
  match to_byte_S p with
  | none => none
  | some pbody =>
    let body := pbody.data.drop 6
    let r := String.mk (body.take 2)
    match parseTable (String.mk (body.drop 2)) with
    | none => none
    | some rvec =>
      match merge own r t rvec with
      | none => none
      | some (t1, upd) =>
        some (t1, upd,
          if upd then (List.range numIntf).map (fun i => (i, send_routes_bytes own t1))
          else [])

/-- The strict-improvement accumulator of the candidate loop in
`Router.forward_packet` (lines 191-195), starting from cost 999 and the
empty name. -/
def pickStep (acc : Nat × String) (p : String × Nat) : Nat × String :=
  if p.2 < acc.1 then (p.2, p.1) else acc

/-- Candidate costs `rt_tbl_D[dst][router] + rt_tbl_D[router][own]` for
every key of the cost table starting with "R", in cost-table order;
`none` models a `KeyError` on a missing table entry. -/
def candList (own : String) (t : Table) (dst : String) :
    List String → Option (List (String × Nat))
  | [] => some []
  | router :: rest =>
    match get2 t dst router, get2 t router own with
    | some a, some b =>
      match candList own t dst rest with
      | none => none
      | some l => some ((router, a + b) :: l)
    | _, _ => none

/-- The candidate list of `Router.forward_packet` for a non-neighbour
destination. -/
def candidates (own : String) (cost_D : CostD) (t : Table) (dst : String) :
    Option (List (String × Nat)) :=
  candList own t dst ((cost_D.map Prod.fst).filter startsR)

/-- The next-hop choice of `Router.forward_packet` (lines 186-196): a
direct neighbour wins outright, otherwise the fold keeps the first
candidate whose cost strictly improves on the running best. -/
def choose (own : String) (cost_D : CostD) (t : Table) (dst : String) :
    Option String :=
  if (lk cost_D dst).isSome then some dst
  else
    match candidates own cost_D t dst with
    | none => none
    | some l => some (l.foldl pickStep (999, "")).2

/-- Embedding of `Router.forward_packet` (lines 178-206): returns the out
interface (the first interface key of the chosen neighbour's cost row)
and the re-encoded byte string; `none` models an uncaught exception
(`KeyError` on a missing table entry, `IndexError` on an empty cost row).
The `put` uses blocking mode, so `queue.Full` is never raised here. -/
def forward_packet (own : String) (cost_D : CostD) (t : Table)
    (p : NetworkPacket) : Option (Nat × String) :=
  match choose own cost_D t p.dst with
  | none => none
  | some cfwd =>
    match lk cost_D cfwd with
    | none => none
    | some cv =>
      match cv.head? with
      | none => none
      | some q =>
        match to_byte_S p with
        | none => none
        | some bytes => some (q.1, bytes)

/-- One dispatch step of `Router.process_queues` (lines 160-172) for the
head of one in-queue, with `none` input for an empty queue: decode the
packet and either forward it or apply the routing update, threading the
routing table and appending the emitted `(interface, bytes)` sends; a
`none` result models an exception escaping the loop. -/
def pqStep (own : String) (cost_D : CostD) (numIntf : Nat)
    (st : Table × List (Nat × String)) (mp : Option String) :
    Option (Table × List (Nat × String)) :=
  match mp with
  | none => pure st
  | some s =>
    match from_byte_S s with
    | none => none
    | some p =>
      if p.prot_S = "data" then
        match forward_packet own cost_D st.1 p with
        | none => none
        | some act => pure (st.1, st.2 ++ [act])
      else if p.prot_S = "control" then
        match update_routes own numIntf st.1 p with
        | none => none
        | some (t1, _, outs) => pure (t1, st.2 ++ outs)
      else none

/-- One pass of `Router.process_queues` (lines 159-172) over the heads of
the in-queues, one entry per interface; the number of interfaces used by
the flooding of an update equals the length of `inbound`. -/
def process_queues (own : String) (cost_D : CostD) (t : Table)
    (inbound : List (Option String)) : Option (Table × List (Nat × String)) :=
  inbound.foldlM (pqStep own cost_D inbound.length) (t, [])

/-- Relaxation step exactly as claim C1 words it, for comparison with the
code's `relaxStep`: `table[y][own] = min(table[y][own], linkCost[v] +
table[v][y])`, with the link cost of neighbour `v` read from the cost
table and missing entries read as the sentinel 999. -/
def relaxStepSpec (own : String) (cost_D : CostD) (y v : String)
    (st : Table × Bool) : Table × Bool :=
  let lc := ((lk cost_D v).bind (fun cv => cv.head?.map Prod.snd)).getD 999
  let tvy := (get2 st.1 v y).getD 999
  let cy := (get2 st.1 y own).getD 999
  if lc + tvy < cy then
    (setK st.1 y (setK ((lk st.1 y).getD []) own (lc + tvy)), true)
  else st

/-- Merge as claim C1 states it, for comparison with the code's `merge`:
the same absorb phase, then for every known destination `y` and every
neighbour-router `v` of the cost table with `v` different from `y`, relax
with `linkCost[v] + table[v][y]`, reporting whether any self-cost
strictly decreased. -/
def mergeSpecClaim (own : String) (cost_D : CostD) (r : String)
    (t rvec : Table) : Option (Table × Bool) :=
  match (keysUnion t rvec).foldlM (absorbStep own r) (t, rvec) with
  | none => none
  | some st =>
    some ((keysUnion t rvec).foldl
      (fun st1 y => ((cost_D.map Prod.fst).filter startsR).foldl
        (fun st2 v => if v = y then st2 else relaxStepSpec own cost_D y v st2) st1)
      (st.1, false))

/-- Lexicographic comparison of router ids by character codes, the
"ascending id" ordering that claim C7 mandates for tie-breaking. -/
def idLt : List Char → List Char → Bool
  | [], [] => false
  | [], _ :: _ => true
  | _ :: _, [] => false
  | a :: as, b :: bs =>
    if a.toNat < b.toNat then true
    else if b.toNat < a.toNat then false
    else idLt as bs

/-- Next-hop selection exactly as claim C7 words it, for comparison with
the code's `pickStep` fold: the minimal-cost candidate, ties broken by
ascending router id. -/
def pickSpecAsc (acc : Nat × String) (p : String × Nat) : Nat × String :=
  if p.2 < acc.1 then (p.2, p.1)
  else if p.2 = acc.1 ∧ idLt p.1.data acc.2.data then (p.2, p.1)
  else acc

/-- Relation between the state after and before a sequence of relaxation
steps: self-costs never increase, a set changed-flag comes from a strict
decrease somewhere, a clear changed-flag means nothing moved. -/
def RelaxRel (own : String) (s' s : Table × Bool) : Prop :=
  (∀ z, selfCost own s'.1 z ≤ selfCost own s.1 z) ∧
  (s'.2 = true → s.2 = true ∨ ∃ z, selfCost own s'.1 z < selfCost own s.1 z) ∧
  (s'.2 = false → s.2 = false ∧ ∀ z, selfCost own s'.1 z = selfCost own s.1 z)

/-- Every row of the table stores an entry for the key `k`; with `k` the
owning router's id this is the invariant claim C10 states. -/
abbrev RowsHave (k : String) (t : Table) : Prop :=
  ∀ p ∈ t, (lk p.2 k).isSome

theorem lk_setK_self {α : Type} (m : List (String × α)) (k : String) (v : α) :
    lk (setK m k v) k = some v := by
  induction m with
  | nil => simp [setK, lk]
  | cons p rest ih =>
    obtain ⟨k', v'⟩ := p
    by_cases h : k' = k
    · simp [setK, h, lk]
    · simp [setK, h, lk, ih]

theorem lk_setK_ne {α : Type} (m : List (String × α)) (k k' : String) (v : α)
    (h : k' ≠ k) : lk (setK m k v) k' = lk m k' := by
  induction m with
  | nil => simp [setK, lk, Ne.symm h]
  | cons p rest ih =>
    obtain ⟨a, b⟩ := p
    by_cases hak : a = k
    · subst hak
      simp [setK, lk, Ne.symm h]
    · simp only [setK, if_neg hak, lk, ih]

theorem lk_setK_isSome {α : Type} (m : List (String × α)) (k k' : String)
    (v : α) (h : (lk m k').isSome) : (lk (setK m k v) k').isSome := by
  by_cases hk : k' = k
  · subst hk; rw [lk_setK_self]; rfl
  · rwa [lk_setK_ne _ _ _ _ hk]

theorem mem_setK {α : Type} (m : List (String × α)) (k : String) (v : α)
    (p : String × α) (h : p ∈ setK m k v) : p = (k, v) ∨ p ∈ m := by
  induction m with
  | nil => simp [setK] at h; simp [h]
  | cons q rest ih =>
    obtain ⟨a, b⟩ := q
    by_cases hak : a = k
    · simp [setK, hak] at h
      rcases h with h | h
      · exact Or.inl (by simp [h])
      · exact Or.inr (List.mem_cons_of_mem _ h)
    · simp [setK, hak] at h
      rcases h with h | h
      · exact Or.inr (by simp [h])
      · rcases ih h with h' | h'
        · exact Or.inl h'
        · exact Or.inr (List.mem_cons_of_mem _ h')

theorem lk_mem {α : Type} (m : List (String × α)) (k : String) (v : α)
    (h : lk m k = some v) : (k, v) ∈ m := by
  induction m with
  | nil => simp [lk] at h
  | cons q rest ih =>
    obtain ⟨a, b⟩ := q
    by_cases hak : a = k
    · subst hak
      simp [lk] at h
      simp [h]
    · simp [lk, hak] at h
      exact List.mem_cons_of_mem _ (ih h)

theorem get2_setK_ne (t : Table) (y : String) (row : Row) (a b : String)
    (h : a ≠ y) : get2 (setK t y row) a b = get2 t a b := by
  unfold get2
  rw [lk_setK_ne _ _ _ _ h]

theorem get2_setK_self (t : Table) (y : String) (row : Row) (b : String) :
    get2 (setK t y row) y b = lk row b := by
  unfold get2
  rw [lk_setK_self]
  rfl

theorem foldlM_nil_opt {σ α : Type} (f : σ → α → Option σ) (s : σ) :
    List.foldlM f s [] = some s := rfl

theorem foldlM_cons_opt {σ α : Type} (f : σ → α → Option σ) (s : σ) (a : α)
    (l : List α) :
    List.foldlM f s (a :: l) = (f s a).bind (fun s' => List.foldlM f s' l) := rfl

theorem foldlM_rel {σ α : Type} (R : σ → σ → Prop) (f : σ → α → Option σ)
    (hrefl : ∀ s, R s s) (htrans : ∀ a b c, R a b → R b c → R a c)
    (hf : ∀ s a s', f s a = some s' → R s' s) :
    ∀ (l : List α) (s s' : σ), List.foldlM f s l = some s' → R s' s := by
  intro l
  induction l with
  | nil =>
    intro s s' h
    cases h
    exact hrefl s
  | cons a l ih =>
    intro s s' h
    rw [foldlM_cons_opt] at h
    cases hfa : f s a with
    | none => rw [hfa] at h; exact Option.noConfusion h
    | some s1 =>
      rw [hfa] at h
      exact htrans _ _ _ (ih s1 s' h) (hf s a s1 hfa)

theorem foldlM_inv {σ α : Type} (P : σ → Prop) (f : σ → α → Option σ)
    (hf : ∀ s a s', P s → f s a = some s' → P s') :
    ∀ (l : List α) (s s' : σ), List.foldlM f s l = some s' → P s → P s' := by
  intro l
  induction l with
  | nil =>
    intro s s' h hp
    cases h
    exact hp
  | cons a l ih =>
    intro s s' h hp
    rw [foldlM_cons_opt] at h
    cases hfa : f s a with
    | none => rw [hfa] at h; exact Option.noConfusion h
    | some s1 =>
      rw [hfa] at h
      exact ih s1 s' h (hf s a s1 hp hfa)

theorem foldlM_total {σ α : Type} (P : σ → Prop) (f : σ → α → Option σ) :
    ∀ (l : List α), (∀ s a, P s → a ∈ l → ∃ s', f s a = some s' ∧ P s') →
      ∀ s, P s → ∃ s', List.foldlM f s l = some s' ∧ P s' := by
  intro l
  induction l with
  | nil =>
    intro _ s hs
    exact ⟨s, rfl, hs⟩
  | cons a l ih =>
    intro hf s hs
    obtain ⟨s1, hfa, hs1⟩ := hf s a hs (List.mem_cons_self a l)
    obtain ⟨s', hfold, hs'⟩ :=
      ih (fun s b hp hb => hf s b hp (List.mem_cons_of_mem a hb)) s1 hs1
    refine ⟨s', ?_, hs'⟩
    rw [foldlM_cons_opt, hfa]
    exact hfold

theorem foldlM_each {σ α : Type} (Q : α → σ → Prop) (f : σ → α → Option σ)
    (hkeep : ∀ s a s' b, f s a = some s' → Q b s → Q b s')
    (hmake : ∀ s a s', f s a = some s' → Q a s') :
    ∀ (l : List α) (s s' : σ), List.foldlM f s l = some s' → ∀ a ∈ l, Q a s' := by
  intro l
  induction l with
  | nil =>
    intro s s' _ a ha
    exact absurd ha (List.not_mem_nil a)
  | cons b l ih =>
    intro s s' h a ha
    rw [foldlM_cons_opt] at h
    cases hfb : f s b with
    | none => rw [hfb] at h; exact Option.noConfusion h
    | some s1 =>
      rw [hfb] at h
      rcases List.mem_cons.mp ha with rfl | hal
      · exact foldlM_inv (Q a) f (fun s c s' hc hq => hkeep s c s' a hq hc)
          l s1 s' h (hmake s a s1 hfb)
      · exact ih s1 s' h a hal

theorem relaxCore_spec (own y v : String) (b : Bool) (t : Table)
    (ycvec : Row) (t0 : Table) (ycvec1 : Row) (t' : Table) (b' : Bool)
    (hvy : v ≠ y)
    (hy : lk t y = some ycvec)
    (ht0y : lk t0 y = some ycvec1)
    (ht0z : ∀ z, z ≠ y → lk t0 z = lk t z)
    (hyv : lk ycvec1 v = some ((lk ycvec v).getD 999))
    (hyo : lk ycvec1 own = lk ycvec own ∨
      (lk ycvec own = none ∧ lk ycvec1 own = some 999))
    (h : relaxCore own y v b t0 ycvec1 = some (t', b')) :
    selfCost own t' y =
      min (selfCost own t y) ((get2 t v own).getD 999 + (get2 t y v).getD 999) ∧
    b' = (b || decide ((get2 t v own).getD 999 + (get2 t y v).getD 999 <
      selfCost own t y)) ∧
    ∀ z, z ≠ y → selfCost own t' z = selfCost own t z := by
  have hSy : selfCost own t y = (lk ycvec own).getD 999 := by
    simp [selfCost, get2, hy]
  have hB : (get2 t y v).getD 999 = (lk ycvec v).getD 999 := by
    simp [get2, hy]
  have hcy' : ∀ c, lk ycvec1 own = some c → c = selfCost own t y := by
    intro c hc
    rcases hyo with hyo | ⟨hyo1, hyo2⟩
    · rw [hyo] at hc
      simp [hSy, hc]
    · rw [hyo2] at hc
      simp [hSy, hyo1]
      exact (Option.some.inj hc).symm
  unfold relaxCore at h
  split at h
  · exact Option.noConfusion h
  next vcvec hv =>
    have hvt : lk t v = some vcvec := by rw [← ht0z v hvy]; exact hv
    have hA : ∀ c, lk vcvec own = some c → (get2 t v own).getD 999 = c := by
      intro c hc
      simp [get2, hvt, hc]
    split at h
    next cv cyv cy hcv hcyv hcy =>
      have hAcv : (get2 t v own).getD 999 = cv := hA cv hcv
      have hBcyv : (get2 t y v).getD 999 = cyv := by
        rw [hB]
        rw [hyv] at hcyv
        exact Option.some.inj hcyv
      have hScy : selfCost own t y = cy := (hcy' cy hcy).symm
      by_cases hlt : cv + cyv < cy
      · rw [if_pos hlt] at h
        obtain ⟨ht', hb'⟩ := Prod.mk.injEq .. ▸ Option.some.inj h
        constructor
        · rw [← ht']
          have : selfCost own (setK t0 y (setK ycvec1 own (cv + cyv))) y
              = cv + cyv := by
            simp [selfCost, get2_setK_self, lk_setK_self]
          rw [this, hAcv, hBcyv, hScy]
          exact (Nat.min_eq_right (Nat.le_of_lt hlt)).symm
        constructor
        · rw [← hb', hAcv, hBcyv, hScy]
          simp [hlt]
        · intro z hz
          rw [← ht']
          simp only [selfCost]
          rw [get2_setK_ne _ _ _ _ _ hz]
          simp only [get2]
          rw [ht0z z hz]
      · rw [if_neg hlt] at h
        obtain ⟨ht', hb'⟩ := Prod.mk.injEq .. ▸ Option.some.inj h
        constructor
        · rw [← ht']
          have : selfCost own t0 y = cy := by
            simp [selfCost, get2, ht0y, hcy]
          rw [this, hAcv, hBcyv, hScy]
          exact (Nat.min_eq_left (Nat.le_of_not_lt hlt)).symm
        constructor
        · rw [← hb', hAcv, hBcyv, hScy]
          simp [hlt]
        · intro z hz
          rw [← ht']
          simp only [selfCost, get2]
          rw [ht0z z hz]
    next hno =>
      exact Option.noConfusion h

theorem relaxStep_spec (own y v : String) (t : Table) (b : Bool)
    (t' : Table) (b' : Bool) (hvy : v ≠ y)
    (h : relaxStep own y v (t, b) = some (t', b')) :
    selfCost own t' y =
      min (selfCost own t y) ((get2 t v own).getD 999 + (get2 t y v).getD 999) ∧
    b' = (b || decide ((get2 t v own).getD 999 + (get2 t y v).getD 999 <
      selfCost own t y)) ∧
    ∀ z, z ≠ y → selfCost own t' z = selfCost own t z := by
  unfold relaxStep at h
  split at h
  · exact Option.noConfusion h
  next ycvec hy =>
    split at h
    next w hw =>
      exact relaxCore_spec own y v b t ycvec t ycvec t' b' hvy hy hy
        (fun z _ => rfl) (by rw [hw]; rfl) (Or.inl rfl) h
    next hw =>
      refine relaxCore_spec own y v b t ycvec (setK t y (setK ycvec v 999))
        (setK ycvec v 999) t' b' hvy hy
        (lk_setK_self _ _ _) (fun z hz => lk_setK_ne _ _ _ _ hz) ?_ ?_ h
      · rw [lk_setK_self, hw]
        rfl
      · by_cases hvo : v = own
        · subst hvo
          exact Or.inr ⟨hw, lk_setK_self _ _ _⟩
        · exact Or.inl (lk_setK_ne _ _ _ _ (fun hh => hvo hh.symm))

theorem foldlM_mem_none {σ α : Type} (f : σ → α → Option σ) (x : α)
    (hx : ∀ s, f s x = none) :
    ∀ (l : List α) (s : σ), x ∈ l → List.foldlM f s l = none := by
  intro l
  induction l with
  | nil =>
    intro s hs
    exact absurd hs (List.not_mem_nil x)
  | cons a l ih =>
    intro s hs
    rw [foldlM_cons_opt]
    rcases List.mem_cons.mp hs with rfl | hal
    · rw [hx s]; rfl
    · cases hfa : f s a with
      | none => rfl
      | some s1 => exact ih s1 hal

theorem relaxRel_refl (own : String) (s : Table × Bool) : RelaxRel own s s :=
  ⟨fun _ => le_refl _, fun h => Or.inl h, fun h => ⟨h, fun _ => rfl⟩⟩

theorem relaxRel_trans (own : String) (a b c : Table × Bool)
    (hab : RelaxRel own a b) (hbc : RelaxRel own b c) : RelaxRel own a c := by
  obtain ⟨le1, up1, dn1⟩ := hab
  obtain ⟨le2, up2, dn2⟩ := hbc
  refine ⟨fun z => (le1 z).trans (le2 z), ?_, ?_⟩
  · intro ha
    rcases up1 ha with hb | ⟨z, hz⟩
    · rcases up2 hb with hc | ⟨z, hz⟩
      · exact Or.inl hc
      · exact Or.inr ⟨z, lt_of_le_of_lt (le1 z) hz⟩
    · exact Or.inr ⟨z, lt_of_lt_of_le hz (le2 z)⟩
  · intro ha
    obtain ⟨hb, he1⟩ := dn1 ha
    obtain ⟨hc, he2⟩ := dn2 hb
    exact ⟨hc, fun z => (he1 z).trans (he2 z)⟩

theorem relaxStep_rel (own y v : String) (hvy : v ≠ y) (st st' : Table × Bool)
    (h : relaxStep own y v st = some st') : RelaxRel own st' st := by
  obtain ⟨t, b⟩ := st
  obtain ⟨t', b'⟩ := st'
  obtain ⟨hmin, hb, hoth⟩ := relaxStep_spec own y v t b t' b' hvy h
  refine ⟨?_, ?_, ?_⟩
  · intro z
    by_cases hz : z = y
    · subst hz
      rw [hmin]
      exact Nat.min_le_left _ _
    · exact le_of_eq (hoth z hz)
  · intro hb'
    have hbt : b' = true := hb'
    rw [hbt] at hb
    show b = true ∨ ∃ z, selfCost own t' z < selfCost own t z
    cases hbb : b with
    | true => exact Or.inl rfl
    | false =>
      rw [hbb] at hb
      simp only [Bool.false_or] at hb
      have hlt := of_decide_eq_true hb.symm
      refine Or.inr ⟨y, ?_⟩
      rw [hmin]
      exact lt_of_le_of_lt (Nat.min_le_right _ _) (lt_of_lt_of_le hlt (le_refl _))
  · intro hb'
    have hbf0 : b' = false := hb'
    rw [hbf0] at hb
    show b = false ∧ ∀ z, selfCost own t' z = selfCost own t z
    have hb2 := hb.symm
    rw [Bool.or_eq_false_iff] at hb2
    obtain ⟨hbf, hdf⟩ := hb2
    refine ⟨hbf, ?_⟩
    intro z
    by_cases hz : z = y
    · subst hz
      rw [hmin]
      have hnlt := of_decide_eq_false hdf
      exact Nat.min_eq_left (Nat.le_of_not_lt hnlt)
    · exact hoth z hz

theorem relaxInner_rel (own y : String) (routers : List String)
    (st st' : Table × Bool)
    (h : List.foldlM
      (fun st2 v => if v = y then pure st2 else relaxStep own y v st2)
      st routers = some st') : RelaxRel own st' st := by
  refine foldlM_rel (RelaxRel own) _ (relaxRel_refl own)
    (relaxRel_trans own) ?_ routers st st' h
  intro s a s' hfa
  by_cases hay : a = y
  · rw [if_pos hay] at hfa
    cases hfa
    exact relaxRel_refl own s
  · rw [if_neg hay] at hfa
    exact relaxStep_rel own y a hay s s' hfa

theorem relaxAll_rel (own : String) (keys routers : List String) (t : Table)
    (res : Table × Bool) (h : relaxAll own keys routers t = some res) :
    RelaxRel own res (t, false) := by
  refine foldlM_rel (RelaxRel own) _ (relaxRel_refl own)
    (relaxRel_trans own) ?_ keys (t, false) res h
  intro s a s' hfa
  exact relaxInner_rel own a routers s s' hfa

theorem absorbStep_selfEq (own r : String) (hro : r ≠ own)
    (st : Table × Table) (dst : String) (st' : Table × Table)
    (h : absorbStep own r st dst = some st') :
    ∀ z, selfCost own st'.1 z = selfCost own st.1 z := by
  have hstepA : ∀ z, selfCost own
      (if (lk st.1 dst).isSome then st.1 else setK st.1 dst [(own, 999)]) z =
      selfCost own st.1 z := by
    intro z
    by_cases hd : (lk st.1 dst).isSome
    · simp [hd]
    · rw [if_neg hd]
      by_cases hz : z = dst
      · subst hz
        have hnone : lk st.1 z = none := Option.not_isSome_iff_eq_none.mp hd
        simp only [selfCost]
        rw [get2_setK_self]
        simp [lk, get2, hnone]
      · simp only [selfCost]
        rw [get2_setK_ne _ _ _ _ _ hz]
  simp only [absorbStep] at h
  split at h
  · exact Option.noConfusion h
  next c hc =>
    split at h
    · exact Option.noConfusion h
    next trow htrow =>
      intro z
      have h1 : setK
          (if (lk st.1 dst).isSome then st.1 else setK st.1 dst [(own, 999)])
          dst (setK trow r c) = st'.1 :=
        congrArg Prod.fst (Option.some.inj h)
      rw [← h1]
      by_cases hz : z = dst
      · subst hz
        simp only [selfCost]
        rw [get2_setK_self, lk_setK_ne _ _ _ _ (Ne.symm hro)]
        have hg : get2
            (if (lk st.1 z).isSome then st.1 else setK st.1 z [(own, 999)])
            z own = lk trow own := by
          simp [get2, htrow]
        rw [← hg]
        exact hstepA z
      · simp only [selfCost]
        rw [get2_setK_ne _ _ _ _ _ hz]
        exact hstepA z

theorem absorbFold_selfEq (own r : String) (hro : r ≠ own)
    (keys : List String) (st st' : Table × Table)
    (h : List.foldlM (absorbStep own r) st keys = some st') :
    ∀ z, selfCost own st'.1 z = selfCost own st.1 z := by
  refine foldlM_rel
    (fun s' s => ∀ z, selfCost own s'.1 z = selfCost own s.1 z) _
    ?_ ?_ ?_ keys st st' h
  · intro s z
    rfl
  · intro a b c hab hbc z
    exact (hab z).trans (hbc z)
  · intro s a s' hfa
    exact absorbStep_selfEq own r hro s a s' hfa

theorem merge_elim (own r : String) (t rv t' : Table) (b : Bool)
    (h : merge own r t rv = some (t', b)) :
    ∃ st1 : Table × Table,
      List.foldlM (absorbStep own r) (t, rv) (keysUnion t rv) = some st1 ∧
      relaxAll own (keysUnion t rv) ((keysUnion t rv).filter startsR) st1.1 =
        some (t', b) := by
  unfold merge at h
  split at h
  · exact Option.noConfusion h
  next st1 heq => exact ⟨st1, heq, h⟩

theorem merge_selfLe (own r : String) (t rv t' : Table) (b : Bool)
    (h : merge own r t rv = some (t', b)) (hro : r ≠ own) :
    ∀ z, selfCost own t' z ≤ selfCost own t z := by
  obtain ⟨st1, h1, h2⟩ := merge_elim own r t rv t' b h
  have he := absorbFold_selfEq own r hro (keysUnion t rv) (t, rv) st1 h1
  have hr := relaxAll_rel own (keysUnion t rv)
    ((keysUnion t rv).filter startsR) st1.1 (t', b) h2
  intro z
  exact le_of_le_of_eq (hr.1 z) (he z)

theorem merge_changed_iff (own r : String) (t rv t' : Table) (b : Bool)
    (h : merge own r t rv = some (t', b)) (hro : r ≠ own) :
    b = true ↔ ∃ z, selfCost own t' z < selfCost own t z := by
  obtain ⟨st1, h1, h2⟩ := merge_elim own r t rv t' b h
  have he := absorbFold_selfEq own r hro (keysUnion t rv) (t, rv) st1 h1
  have hr := relaxAll_rel own (keysUnion t rv)
    ((keysUnion t rv).filter startsR) st1.1 (t', b) h2
  constructor
  · intro hb
    rcases hr.2.1 hb with hfalse | ⟨z, hz⟩
    · exact absurd hfalse (by simp)
    · exact ⟨z, lt_of_lt_of_le hz (le_of_eq (he z))⟩
  · intro ⟨z, hz⟩
    cases hbb : b with
    | true => rfl
    | false =>
      obtain ⟨-, heq⟩ := hr.2.2 hbb
      rw [(heq z).trans (he z)] at hz
      exact absurd hz (lt_irrefl _)

theorem merge_self_zero (own r : String) (t rv t' : Table) (b : Bool)
    (h : merge own r t rv = some (t', b)) (hro : r ≠ own)
    (h0 : selfCost own t own = 0) : selfCost own t' own = 0 :=
  Nat.le_zero.mp (h0 ▸ merge_selfLe own r t rv t' b h hro own)

theorem rowsHave_setK (k : String) (t : Table) (d : String) (row : Row)
    (ht : RowsHave k t) (hrow : (lk row k).isSome) :
    RowsHave k (setK t d row) := by
  intro p hp
  rcases mem_setK t d row p hp with rfl | hpm
  · exact hrow
  · exact ht p hpm

theorem absorbStep_total (own r : String) (st : Table × Table) (dst : String)
    (h1 : RowsHave own st.1) (h2 : RowsHave r st.2) :
    ∃ st', absorbStep own r st dst = some st' ∧
      RowsHave own st'.1 ∧ RowsHave r st'.2 := by
  have hrv2 : RowsHave r
      (if (lk st.2 dst).isSome then st.2 else setK st.2 dst [(r, 999)]) := by
    by_cases hd : (lk st.2 dst).isSome
    · rw [if_pos hd]; exact h2
    · rw [if_neg hd]
      refine rowsHave_setK r st.2 dst [(r, 999)] h2 ?_
      simp [lk]
  have ht2 : RowsHave own
      (if (lk st.1 dst).isSome then st.1 else setK st.1 dst [(own, 999)]) := by
    by_cases hd : (lk st.1 dst).isSome
    · rw [if_pos hd]; exact h1
    · rw [if_neg hd]
      refine rowsHave_setK own st.1 dst [(own, 999)] h1 ?_
      simp [lk]
  have hrvd : (lk
      (if (lk st.2 dst).isSome then st.2 else setK st.2 dst [(r, 999)])
      dst).isSome := by
    by_cases hd : (lk st.2 dst).isSome
    · rw [if_pos hd]; exact hd
    · rw [if_neg hd, lk_setK_self]; rfl
  have htd : (lk
      (if (lk st.1 dst).isSome then st.1 else setK st.1 dst [(own, 999)])
      dst).isSome := by
    by_cases hd : (lk st.1 dst).isSome
    · rw [if_pos hd]; exact hd
    · rw [if_neg hd, lk_setK_self]; rfl
  obtain ⟨rrow, hrro⟩ := Option.isSome_iff_exists.mp hrvd
  obtain ⟨c, hcc⟩ := Option.isSome_iff_exists.mp (hrv2 (dst, rrow) (lk_mem _ _ _ hrro))
  obtain ⟨trow, htro⟩ := Option.isSome_iff_exists.mp htd
  refine ⟨(setK
      (if (lk st.1 dst).isSome then st.1 else setK st.1 dst [(own, 999)])
      dst (setK trow r c),
      if (lk st.2 dst).isSome then st.2 else setK st.2 dst [(r, 999)]),
    ?_, ?_, hrv2⟩
  · simp only [absorbStep, hrro, Option.some_bind, hcc, htro]
  · refine rowsHave_setK own _ dst (setK trow r c) ht2 ?_
    exact lk_setK_isSome trow r own c (ht2 (dst, trow) (lk_mem _ _ _ htro))

theorem absorbStep_presence (own r : String) (st : Table × Table)
    (dst : String) (st' : Table × Table)
    (h : absorbStep own r st dst = some st') :
    (∀ k, (lk st.1 k).isSome → (lk st'.1 k).isSome) ∧
      (lk st'.1 dst).isSome := by
  simp only [absorbStep] at h
  split at h
  · exact Option.noConfusion h
  next c hc =>
    split at h
    · exact Option.noConfusion h
    next trow htrow =>
      have h1 : setK
          (if (lk st.1 dst).isSome then st.1 else setK st.1 dst [(own, 999)])
          dst (setK trow r c) = st'.1 :=
        congrArg Prod.fst (Option.some.inj h)
      constructor
      · intro k hk
        rw [← h1]
        refine lk_setK_isSome _ _ _ _ ?_
        by_cases hd : (lk st.1 dst).isSome
        · rw [if_pos hd]; exact hk
        · rw [if_neg hd]; exact lk_setK_isSome _ _ _ _ hk
      · rw [← h1, lk_setK_self]
        rfl

theorem relaxCore_total (own y v : String) (b : Bool) (t0 : Table)
    (ycvec1 : Row) (keys : List String)
    (hky : ∀ k ∈ keys, (lk t0 k).isSome) (hrows : RowsHave own t0)
    (hvk : v ∈ keys) (hy : lk t0 y = some ycvec1)
    (hyv : (lk ycvec1 v).isSome) :
    ∃ res, relaxCore own y v b t0 ycvec1 = some res ∧
      RowsHave own res.1 ∧ ∀ k ∈ keys, (lk res.1 k).isSome := by
  obtain ⟨vcvec, hveq⟩ := Option.isSome_iff_exists.mp (hky v hvk)
  obtain ⟨cv, hcveq⟩ :=
    Option.isSome_iff_exists.mp (hrows (v, vcvec) (lk_mem _ _ _ hveq))
  obtain ⟨cyv, hcyveq⟩ := Option.isSome_iff_exists.mp hyv
  obtain ⟨cy, hcyeq⟩ :=
    Option.isSome_iff_exists.mp (hrows (y, ycvec1) (lk_mem _ _ _ hy))
  by_cases hlt : cv + cyv < cy
  · refine ⟨(setK t0 y (setK ycvec1 own (cv + cyv)), true), ?_, ?_, ?_⟩
    · simp only [relaxCore, hveq, hcveq, hcyveq, hcyeq, if_pos hlt]
    · refine rowsHave_setK own t0 y (setK ycvec1 own (cv + cyv)) hrows ?_
      rw [lk_setK_self]
      rfl
    · intro k hk
      exact lk_setK_isSome _ _ _ _ (hky k hk)
  · refine ⟨(t0, b), ?_, hrows, hky⟩
    simp only [relaxCore, hveq, hcveq, hcyveq, hcyeq, if_neg hlt]

theorem relaxStep_total (own y v : String) (st : Table × Bool)
    (keys : List String)
    (hky : ∀ k ∈ keys, (lk st.1 k).isSome) (hrows : RowsHave own st.1)
    (hyk : y ∈ keys) (hvk : v ∈ keys) :
    ∃ st', relaxStep own y v st = some st' ∧
      RowsHave own st'.1 ∧ ∀ k ∈ keys, (lk st'.1 k).isSome := by
  obtain ⟨ycvec, hyeq⟩ := Option.isSome_iff_exists.mp (hky y hyk)
  cases hlyv : lk ycvec v with
  | some w =>
    obtain ⟨res, hres, hr1, hr2⟩ := relaxCore_total own y v st.2 st.1 ycvec
      keys hky hrows hvk hyeq (by rw [hlyv]; rfl)
    refine ⟨res, ?_, hr1, hr2⟩
    simp only [relaxStep, hyeq, hlyv]
    exact hres
  | none =>
    have hky' : ∀ k ∈ keys, (lk (setK st.1 y (setK ycvec v 999)) k).isSome :=
      fun k hk => lk_setK_isSome _ _ _ _ (hky k hk)
    have hrows' : RowsHave own (setK st.1 y (setK ycvec v 999)) := by
      refine rowsHave_setK own st.1 y (setK ycvec v 999) hrows ?_
      exact lk_setK_isSome _ _ _ _ (hrows (y, ycvec) (lk_mem _ _ _ hyeq))
    obtain ⟨res, hres, hr1, hr2⟩ := relaxCore_total own y v st.2
      (setK st.1 y (setK ycvec v 999)) (setK ycvec v 999)
      keys hky' hrows' hvk (lk_setK_self _ _ _) (by rw [lk_setK_self]; rfl)
    refine ⟨res, ?_, hr1, hr2⟩
    simp only [relaxStep, hyeq, hlyv]
    exact hres

theorem relaxAll_total (own : String) (keys routers : List String) (t : Table)
    (hsub : ∀ v ∈ routers, v ∈ keys)
    (hky : ∀ k ∈ keys, (lk t k).isSome) (hrows : RowsHave own t) :
    ∃ res, relaxAll own keys routers t = some res ∧ RowsHave own res.1 := by
  have hstep : ∀ y : String, y ∈ keys → ∀ s : Table × Bool,
      (RowsHave own s.1 ∧ ∀ k ∈ keys, (lk s.1 k).isSome) →
      ∃ s', List.foldlM
        (fun st2 v => if v = y then pure st2 else relaxStep own y v st2)
        s routers = some s' ∧
        (RowsHave own s'.1 ∧ ∀ k ∈ keys, (lk s'.1 k).isSome) := by
    intro y hy s hp
    refine foldlM_total _ _ routers ?_ s hp
    intro s2 v hp2 hv
    by_cases hvy : v = y
    · refine ⟨s2, ?_, hp2⟩
      rw [if_pos hvy]
      rfl
    · obtain ⟨st', hst', h1, h2⟩ :=
        relaxStep_total own y v s2 keys hp2.2 hp2.1 hy (hsub v hv)
      refine ⟨st', ?_, h1, h2⟩
      rw [if_neg hvy]
      exact hst'
  obtain ⟨res, hres, hr1, -⟩ := foldlM_total
    (fun st : Table × Bool =>
      RowsHave own st.1 ∧ ∀ k ∈ keys, (lk st.1 k).isSome)
    (fun st y => List.foldlM
      (fun st2 v => if v = y then pure st2 else relaxStep own y v st2) st
      routers)
    keys (fun s y hp hy => hstep y hy s hp) (t, false) ⟨hrows, hky⟩
  exact ⟨res, hres, hr1⟩

theorem merge_total (own r : String) (t rv : Table)
    (ht : RowsHave own t) (hrv : RowsHave r rv) :
    ∃ t' b, merge own r t rv = some (t', b) ∧ RowsHave own t' := by
  obtain ⟨st1, h1, hP1, _⟩ := foldlM_total
    (fun st : Table × Table => RowsHave own st.1 ∧ RowsHave r st.2)
    (absorbStep own r) (keysUnion t rv)
    (fun s dst hp _ => by
      obtain ⟨st', hst', q1, q2⟩ := absorbStep_total own r s dst hp.1 hp.2
      exact ⟨st', hst', q1, q2⟩)
    (t, rv) ⟨ht, hrv⟩
  have hkeys : ∀ dst ∈ keysUnion t rv, (lk st1.1 dst).isSome :=
    foldlM_each (fun dst st => (lk st.1 dst).isSome) (absorbStep own r)
      (fun s a s' b' hfa hq => (absorbStep_presence own r s a s' hfa).1 b' hq)
      (fun s a s' hfa => (absorbStep_presence own r s a s' hfa).2)
      (keysUnion t rv) (t, rv) st1 h1
  obtain ⟨res, h2, hres⟩ := relaxAll_total own (keysUnion t rv)
    ((keysUnion t rv).filter startsR) st1.1
    (fun v hv => List.mem_of_mem_filter hv) hkeys hP1
  refine ⟨res.1, res.2, ?_, hres⟩
  simp only [merge, h1]
  rw [← h2]

theorem initRow_lk (own : String) :
    ∀ (cv : CostRow) (row : Row), (cv ≠ [] ∨ (lk row own).isSome) →
      (lk (cv.foldl (fun row p => setK row own p.2) row) own).isSome := by
  intro cv
  induction cv with
  | nil =>
    intro row h
    rcases h with h | h
    · exact absurd rfl h
    · exact h
  | cons q cv ih =>
    intro row _
    simp only [List.foldl_cons]
    refine ih (setK row own q.2) (Or.inr ?_)
    rw [lk_setK_self]
    rfl

theorem initTable_rowsHave (own : String) (cost_D : CostD)
    (hne : ∀ p ∈ cost_D, p.2 ≠ []) : RowsHave own (initTable own cost_D) := by
  intro p hp
  rcases mem_setK _ _ _ p hp with rfl | hpm
  · simp [lk]
  · obtain ⟨q, hq, hqe⟩ := List.mem_map.mp hpm
    rw [← hqe]
    exact initRow_lk own q.2 [] (Or.inl (hne q hq))

theorem initTable_self_zero (own : String) (cost_D : CostD) :
    selfCost own (initTable own cost_D) own = 0 := by
  simp [initTable, selfCost, get2, lk_setK_self, lk]

theorem pick_foldl_spec :
    ∀ (l : List (String × Nat)) (acc : Nat × String),
      (List.foldl pickStep acc l = acc ∧ ∀ p ∈ l, acc.1 ≤ p.2) ∨
      (∃ i, ∃ hi : i < l.length,
        (l.get ⟨i, hi⟩).1 = (List.foldl pickStep acc l).2 ∧
        (l.get ⟨i, hi⟩).2 = (List.foldl pickStep acc l).1 ∧
        (List.foldl pickStep acc l).1 < acc.1 ∧
        (∀ j, ∀ hj : j < l.length, j < i →
          (List.foldl pickStep acc l).1 < (l.get ⟨j, hj⟩).2) ∧
        (∀ j, ∀ hj : j < l.length,
          (List.foldl pickStep acc l).1 ≤ (l.get ⟨j, hj⟩).2)) := by
  intro l
  induction l with
  | nil =>
    intro acc
    exact Or.inl ⟨rfl, fun p hp => absurd hp (List.not_mem_nil p)⟩
  | cons p rest ih =>
    intro acc
    by_cases hp : p.2 < acc.1
    · have hfold : List.foldl pickStep acc (p :: rest) =
          List.foldl pickStep (p.2, p.1) rest := by
        simp [List.foldl_cons, pickStep, hp]
      rw [hfold]
      rcases ih (p.2, p.1) with ⟨heq, hall⟩ | ⟨i, hi, hn, hc, hlt, hbef, hle⟩
      · rw [heq]
        refine Or.inr ⟨0, Nat.succ_pos _, rfl, rfl, hp, ?_, ?_⟩
        · intro j hj hj0
          exact absurd hj0 (Nat.not_lt_zero j)
        · intro j hj
          cases j with
          | zero => exact le_refl _
          | succ j =>
            exact hall _ (List.get_mem rest j (Nat.lt_of_succ_lt_succ hj))
      · refine Or.inr ⟨i + 1, Nat.succ_lt_succ hi, hn, hc,
          lt_trans hlt hp, ?_, ?_⟩
        · intro j hj hji
          cases j with
          | zero => exact hlt
          | succ j =>
            exact hbef j (Nat.lt_of_succ_lt_succ hj)
              (Nat.lt_of_succ_lt_succ hji)
        · intro j hj
          cases j with
          | zero => exact le_of_lt hlt
          | succ j => exact hle j (Nat.lt_of_succ_lt_succ hj)
    · have hfold : List.foldl pickStep acc (p :: rest) =
          List.foldl pickStep acc rest := by
        simp [List.foldl_cons, pickStep, hp]
      rw [hfold]
      rcases ih acc with ⟨heq, hall⟩ | ⟨i, hi, hn, hc, hlt, hbef, hle⟩
      · refine Or.inl ⟨heq, ?_⟩
        intro q hq
        rcases List.mem_cons.mp hq with rfl | hq'
        · exact Nat.le_of_not_lt hp
        · exact hall q hq'
      · refine Or.inr ⟨i + 1, Nat.succ_lt_succ hi, hn, hc, hlt, ?_, ?_⟩
        · intro j hj hji
          cases j with
          | zero => exact lt_of_lt_of_le hlt (Nat.le_of_not_lt hp)
          | succ j =>
            exact hbef j (Nat.lt_of_succ_lt_succ hj)
              (Nat.lt_of_succ_lt_succ hji)
        · intro j hj
          cases j with
          | zero => exact le_trans (le_of_lt hlt) (Nat.le_of_not_lt hp)
          | succ j => exact hle j (Nat.lt_of_succ_lt_succ hj)

theorem choose_eq (own dst : String) (cost_D : CostD) (t : Table)
    (l : List (String × Nat)) (h0 : lk cost_D dst = none)
    (hl : candidates own cost_D t dst = some l) :
    choose own cost_D t dst = some (List.foldl pickStep (999, "") l).2 := by
  unfold choose
  rw [h0]
  simp only [Option.isSome_none, Bool.false_eq_true, if_false, hl]

theorem forward_neighbor (own dst pay : String) (cost_D : CostD) (t : Table)
    (cv : CostRow) (h1 : lk cost_D dst = some cv) (h2 : cv ≠ []) :
    forward_packet own cost_D t ⟨dst, "data", pay⟩ =
      some ((cv.head h2).1, zfill 5 dst ++ "1" ++ pay) := by
  cases cv with
  | nil => exact absurd rfl h2
  | cons c tl =>
    have hch : choose own cost_D t dst = some dst := by
      unfold choose
      rw [h1]
      rfl
    simp [forward_packet, hch, h1, to_byte_S]

theorem forward_unknown_none (own dst pay : String) (cost_D : CostD)
    (t : Table) (h1 : lk cost_D dst = none) (h2 : lk t dst = none)
    (h3 : lk cost_D "" = none) :
    forward_packet own cost_D t ⟨dst, "data", pay⟩ = none := by
  unfold forward_packet choose candidates
  simp only [h1, Option.isSome_none, Bool.false_eq_true, if_false]
  cases hrt : (cost_D.map Prod.fst).filter startsR with
  | nil => simp [candList, h3]
  | cons router rest => simp [candList, get2, h2]

theorem forward_nonneighbor_elim (own dst pay : String) (cost_D : CostD)
    (t : Table) (l : List (String × Nat)) (res : Nat × String)
    (h0 : lk cost_D dst = none)
    (hl : candidates own cost_D t dst = some l)
    (h : forward_packet own cost_D t ⟨dst, "data", pay⟩ = some res) :
    ∃ cv : CostRow, lk cost_D (List.foldl pickStep (999, "") l).2 = some cv ∧
      cv.head?.map Prod.fst = some res.1 := by
  have hch := choose_eq own dst cost_D t l h0 hl
  simp only [forward_packet, hch] at h
  split at h
  · exact Option.noConfusion h
  next cv hcv =>
    split at h
    · exact Option.noConfusion h
    next q hq =>
      split at h
      · exact Option.noConfusion h
      next bytes hb =>
        refine ⟨cv, hcv, ?_⟩
        have hres := congrArg Prod.fst (Option.some.inj h)
        rw [hq, ← hres]
        rfl

/-- C1 counterexample: on a concrete router ("R1", one neighbour "R2" at
link cost 5) receiving a vector that reports cost 4 from "R2" to a new
host "H3", the code's merge relaxes `table[H3][R1]` to 9 and reports a
change, while the relaxation exactly as the claim words it
(`linkCost[v] + table[v][y]`) leaves the self-cost at the sentinel 999
and reports no change: the claim's formula is not the one the code
computes. -/
theorem update_merge_formula_counterexample :
    merge "R1" "R2" [("R2", [("R1", 5)]), ("R1", [("R1", 0)])]
      [("H3", [("R2", 4)])] =
      some ([("R2", [("R1", 5), ("R2", 999)]),
        ("R1", [("R1", 0), ("R2", 999)]),
        ("H3", [("R1", 9), ("R2", 4)])], true) ∧
    mergeSpecClaim "R1" [("R2", [(0, 5)])] "R2"
      [("R2", [("R1", 5)]), ("R1", [("R1", 0)])] [("H3", [("R2", 4)])] =
      some ([("R2", [("R1", 5), ("R2", 999)]),
        ("R1", [("R1", 0), ("R2", 999)]),
        ("H3", [("R1", 999), ("R2", 4)])], false) :=
  ⟨by decide, by decide⟩

/-- C1 amended: after the received vector has been written into the table,
each relaxation step for a destination `y` and a router `v` (any key
starting with "R", not only neighbours) updates
`table[y][own] = min(table[y][own], table[v][own] + table[y][v])`, applied
sequentially in place; the merge returns true if and only if some
destination's self-cost strictly decreased. -/
theorem update_merge_relaxation_amended :
    (∀ (own y v : String) (t : Table) (b : Bool) (t' : Table) (b' : Bool),
      v ≠ y → relaxStep own y v (t, b) = some (t', b') →
      selfCost own t' y = min (selfCost own t y)
        ((get2 t v own).getD 999 + (get2 t y v).getD 999) ∧
      b' = (b || decide ((get2 t v own).getD 999 + (get2 t y v).getD 999 <
        selfCost own t y)) ∧
      ∀ z, z ≠ y → selfCost own t' z = selfCost own t z) ∧
    (∀ (own r : String) (t rv t' : Table) (b : Bool),
      merge own r t rv = some (t', b) → r ≠ own →
      (b = true ↔ ∃ z, selfCost own t' z < selfCost own t z)) :=
  ⟨fun own y v t b t' b' hvy h => relaxStep_spec own y v t b t' b' hvy h,
   fun own r t rv t' b h hr => merge_changed_iff own r t rv t' b h hr⟩

/-- Witness for the amended C1 theorem at a concrete relaxation step and a
concrete merge. -/
theorem update_merge_relaxation_amended_witness :
    (selfCost "R1" [("H3", [("R1", 9), ("R2", 4)]), ("R2", [("R1", 5)])] "H3" =
      min (selfCost "R1"
          [("H3", [("R1", 999), ("R2", 4)]), ("R2", [("R1", 5)])] "H3")
        ((get2 [("H3", [("R1", 999), ("R2", 4)]), ("R2", [("R1", 5)])]
            "R2" "R1").getD 999 +
          (get2 [("H3", [("R1", 999), ("R2", 4)]), ("R2", [("R1", 5)])]
            "H3" "R2").getD 999) ∧
      true = (false ||
        decide ((get2 [("H3", [("R1", 999), ("R2", 4)]), ("R2", [("R1", 5)])]
            "R2" "R1").getD 999 +
          (get2 [("H3", [("R1", 999), ("R2", 4)]), ("R2", [("R1", 5)])]
            "H3" "R2").getD 999 <
          selfCost "R1"
            [("H3", [("R1", 999), ("R2", 4)]), ("R2", [("R1", 5)])] "H3")) ∧
      ∀ z, z ≠ "H3" →
        selfCost "R1" [("H3", [("R1", 9), ("R2", 4)]), ("R2", [("R1", 5)])] z =
        selfCost "R1"
          [("H3", [("R1", 999), ("R2", 4)]), ("R2", [("R1", 5)])] z) ∧
    (true = true ↔ ∃ z,
      selfCost "R1" [("R2", [("R1", 5), ("R2", 999)]),
        ("R1", [("R1", 0), ("R2", 999)]), ("H3", [("R1", 9), ("R2", 4)])] z <
      selfCost "R1" [("R2", [("R1", 5)]), ("R1", [("R1", 0)])] z) :=
  ⟨update_merge_relaxation_amended.1 "R1" "H3" "R2"
      [("H3", [("R1", 999), ("R2", 4)]), ("R2", [("R1", 5)])] false
      [("H3", [("R1", 9), ("R2", 4)]), ("R2", [("R1", 5)])] true
      (by decide) (by decide),
   update_merge_relaxation_amended.2 "R1" "R2"
      [("R2", [("R1", 5)]), ("R1", [("R1", 0)])] [("H3", [("R2", 4)])]
      [("R2", [("R1", 5), ("R2", 999)]), ("R1", [("R1", 0), ("R2", 999)]),
        ("H3", [("R1", 9), ("R2", 4)])] true
      (by decide) (by decide)⟩

/-- C2: the codec round trip fails on the canonical address "10": Python
`strip "0"` removes the trailing zero as well, so decoding the encoding
of ("10", data, "x") yields destination "1", not "10"; the code
contradicts the documented strip-leading-zeros decode. -/
theorem codec_roundtrip_trailing_zero_bug :
    (to_byte_S ⟨"10", "data", "x"⟩).bind from_byte_S =
      some ⟨"1", "data", "x"⟩ ∧ ("1" : String) ≠ "10" := by decide

/-- C3: the owning router's entry `table[own][own]` is 0 right after
construction for any cost table, and is preserved by every merge of a
received vector whose reported sender differs from the own id. -/
theorem self_cost_zero_invariant (own r : String) (cost_D : CostD)
    (t rv t' : Table) (b : Bool)
    (hm : merge own r t rv = some (t', b)) (hr : r ≠ own)
    (h0 : selfCost own t own = 0) :
    selfCost own (initTable own cost_D) own = 0 ∧
      selfCost own t' own = 0 :=
  ⟨initTable_self_zero own cost_D, merge_self_zero own r t rv t' b hm hr h0⟩

/-- Witness for C3 at the concrete two-router topology. -/
theorem self_cost_zero_invariant_witness :
    selfCost "R1" (initTable "R1" [("R2", [(0, 5)])]) "R1" = 0 ∧
    selfCost "R1" [("R2", [("R1", 5), ("R2", 999)]),
      ("R1", [("R1", 0), ("R2", 999)]), ("H3", [("R1", 9), ("R2", 4)])]
      "R1" = 0 :=
  self_cost_zero_invariant "R1" "R2" [("R2", [(0, 5)])]
    [("R2", [("R1", 5)]), ("R1", [("R1", 0)])] [("H3", [("R2", 4)])]
    [("R2", [("R1", 5), ("R2", 999)]), ("R1", [("R1", 0), ("R2", 999)]),
      ("H3", [("R1", 9), ("R2", 4)])] true
    (by decide) (by decide) (by decide)

/-- C4: a merge of a received vector (sender distinct from the owner)
never increases any destination's self-cost, missing entries read as the
sentinel 999. -/
theorem merge_never_increases_self_cost (own r : String) (t rv t' : Table)
    (b : Bool) (hm : merge own r t rv = some (t', b)) (hr : r ≠ own) :
    ∀ y, selfCost own t' y ≤ selfCost own t y :=
  merge_selfLe own r t rv t' b hm hr

/-- Witness for C4 at the concrete merge, destination "H3". -/
theorem merge_never_increases_self_cost_witness :
    selfCost "R1" [("R2", [("R1", 5), ("R2", 999)]),
      ("R1", [("R1", 0), ("R2", 999)]), ("H3", [("R1", 9), ("R2", 4)])]
      "H3" ≤
    selfCost "R1" [("R2", [("R1", 5)]), ("R1", [("R1", 0)])] "H3" :=
  merge_never_increases_self_cost "R1" "R2"
    [("R2", [("R1", 5)]), ("R1", [("R1", 0)])] [("H3", [("R2", 4)])]
    [("R2", [("R1", 5), ("R2", 999)]), ("R1", [("R1", 0), ("R2", 999)]),
      ("H3", [("R1", 9), ("R2", 4)])] true
    (by decide) (by decide) "H3"

/-- C5: processing a control packet floods exactly when the merge changed
something: no outbound update on `changed = false`, one `send_routes`
packet per interface on `changed = true`. -/
theorem control_flood_iff_changed (own : String) (n : Nat) (t : Table)
    (p : NetworkPacket) (t' : Table) (b : Bool)
    (outs : List (Nat × String))
    (h : update_routes own n t p = some (t', b, outs)) :
    (b = false → outs = []) ∧
    (b = true →
      outs = (List.range n).map (fun i => (i, send_routes_bytes own t'))) := by
  simp only [update_routes] at h
  split at h
  · exact Option.noConfusion h
  next pbody hpb =>
    split at h
    · exact Option.noConfusion h
    next rvec hrv =>
      split at h
      · exact Option.noConfusion h
      next t1 upd hm =>
        injection h with h1
        rw [Prod.mk.injEq, Prod.mk.injEq] at h1
        obtain ⟨ht1, hb1, ho1⟩ := h1
        subst ht1
        subst hb1
        constructor
        · intro hbf
          rw [← ho1, hbf]
          rfl
        · intro hbt
          rw [← ho1, hbt]
          rfl

/-- Witness for C5 at a concrete control packet whose merge changes the
table: exactly one update is sent, on the single interface. -/
theorem control_flood_iff_changed_witness :
    [((0 : Nat), send_routes_bytes "R1"
      [("R2", [("R1", 5), ("R2", 999)]), ("R1", [("R1", 0), ("R2", 999)]),
        ("H3", [("R1", 9), ("R2", 4)])])] =
    (List.range 1).map (fun i => (i, send_routes_bytes "R1"
      [("R2", [("R1", 5), ("R2", 999)]), ("R1", [("R1", 0), ("R2", 999)]),
        ("H3", [("R1", 9), ("R2", 4)])])) :=
  (control_flood_iff_changed "R1" 1
    [("R2", [("R1", 5)]), ("R1", [("R1", 0)])]
    ⟨"", "control", "R2" ++ dumps [("H3", [("R2", 4)])]⟩
    [("R2", [("R1", 5), ("R2", 999)]), ("R1", [("R1", 0), ("R2", 999)]),
      ("H3", [("R1", 9), ("R2", 4)])] true
    [((0 : Nat), send_routes_bytes "R1"
      [("R2", [("R1", 5), ("R2", 999)]), ("R1", [("R1", 0), ("R2", 999)]),
        ("H3", [("R1", 9), ("R2", 4)])])]
    (by decide)).2 rfl

/-- C6: a data packet whose destination is a key of the cost table is
forwarded on the interface attached to that neighbour (the first
interface key of its cost row), for every routing table whatsoever —
in particular regardless of any cheaper indirect path the table
reports. -/
theorem data_to_neighbor_uses_direct_link (own dst pay : String)
    (cost_D : CostD) (t : Table) (cv : CostRow)
    (h1 : lk cost_D dst = some cv) (h2 : cv ≠ []) :
    forward_packet own cost_D t ⟨dst, "data", pay⟩ =
      some ((cv.head h2).1, zfill 5 dst ++ "1" ++ pay) :=
  forward_neighbor own dst pay cost_D t cv h1 h2

/-- Witness for C6: the neighbour "H2" is reached on its interface 0 even
though the routing table claims a cheaper path elsewhere. -/
theorem data_to_neighbor_uses_direct_link_witness :
    forward_packet "R1" [("H2", [(0, 3)])]
      [("R2", [("R1", 5)]), ("R1", [("R1", 0)])] ⟨"H2", "data", "m"⟩ =
      some ((([((0 : Nat), (3 : Nat))] : CostRow).head
        (List.cons_ne_nil _ _)).1, zfill 5 "H2" ++ "1" ++ "m") :=
  data_to_neighbor_uses_direct_link "R1" "H2" "m" [("H2", [(0, 3)])]
    [("R2", [("R1", 5)]), ("R1", [("R1", 0)])] [(0, 3)]
    (by decide) (List.cons_ne_nil _ _)

/-- C7 counterexample: two candidate next hops "R3" and "R2" tie at cost
2; ascending-id tie-breaking as the claim words it selects "R2", whose
interface is 1, but the code keeps the first candidate in cost-table
order and forwards on interface 0 ("R3"). -/
theorem forward_tiebreak_counterexample :
    candidates "R1" [("R3", [(0, 1)]), ("R2", [(1, 1)])]
      [("H9", [("R3", 1), ("R2", 1)]), ("R3", [("R1", 1)]),
        ("R2", [("R1", 1)])] "H9" = some [("R3", 2), ("R2", 2)] ∧
    List.foldl pickSpecAsc (999, "") [("R3", 2), ("R2", 2)] = (2, "R2") ∧
    lk [("R3", [(0, 1)]), ("R2", [(1, 1)])] "R2" = some [(1, 1)] ∧
    forward_packet "R1" [("R3", [(0, 1)]), ("R2", [(1, 1)])]
      [("H9", [("R3", 1), ("R2", 1)]), ("R3", [("R1", 1)]),
        ("R2", [("R1", 1)])] ⟨"H9", "data", "m"⟩ = some (0, "000H91m") ∧
    (0 : Nat) ≠ 1 := by decide

/-- C7 amended: for a non-neighbour destination the code selects the
FIRST candidate, in cost-table iteration order, that attains the minimal
cost `table[dst][v] + table[v][own]` (strictly below the 999 sentinel) —
ties keep the earliest candidate rather than the ascending-id one — and
sends on the first interface of the winner's cost row. -/
theorem forward_first_minimum (own dst pay : String) (cost_D : CostD)
    (t : Table) (l : List (String × Nat)) (res : Nat × String)
    (h0 : lk cost_D dst = none)
    (hl : candidates own cost_D t dst = some l)
    (hnil : lk cost_D "" = none)
    (h : forward_packet own cost_D t ⟨dst, "data", pay⟩ = some res) :
    ∃ i, ∃ hi : i < l.length,
      (l.get ⟨i, hi⟩).1 = (List.foldl pickStep (999, "") l).2 ∧
      (l.get ⟨i, hi⟩).2 = (List.foldl pickStep (999, "") l).1 ∧
      (List.foldl pickStep (999, "") l).1 < 999 ∧
      (∀ j, ∀ hj : j < l.length, j < i →
        (List.foldl pickStep (999, "") l).1 < (l.get ⟨j, hj⟩).2) ∧
      (∀ j, ∀ hj : j < l.length,
        (List.foldl pickStep (999, "") l).1 ≤ (l.get ⟨j, hj⟩).2) ∧
      ∃ cv : CostRow, lk cost_D (l.get ⟨i, hi⟩).1 = some cv ∧
        cv.head?.map Prod.fst = some res.1 := by
  obtain ⟨cv, hcv, hhead⟩ :=
    forward_nonneighbor_elim own dst pay cost_D t l res h0 hl h
  rcases pick_foldl_spec l (999, "") with ⟨heq, -⟩ |
    ⟨i, hi, hn, hc, hlt, hbef, hle⟩
  · rw [heq] at hcv
    rw [hnil] at hcv
    exact Option.noConfusion hcv
  · refine ⟨i, hi, hn, hc, hlt, hbef, hle, cv, ?_, hhead⟩
    rw [hn]
    exact hcv

/-- Witness for the amended C7 theorem at the tie topology: the winner is
the first candidate "R3" at cost 2, sent on its interface 0. -/
theorem forward_first_minimum_witness :
    ∃ i, ∃ hi : i < ([(("R3" : String), (2 : Nat)), ("R2", 2)]).length,
      (([(("R3" : String), (2 : Nat)), ("R2", 2)]).get ⟨i, hi⟩).1 =
        (List.foldl pickStep (999, "")
          [(("R3" : String), (2 : Nat)), ("R2", 2)]).2 ∧
      (([(("R3" : String), (2 : Nat)), ("R2", 2)]).get ⟨i, hi⟩).2 =
        (List.foldl pickStep (999, "")
          [(("R3" : String), (2 : Nat)), ("R2", 2)]).1 ∧
      (List.foldl pickStep (999, "")
        [(("R3" : String), (2 : Nat)), ("R2", 2)]).1 < 999 ∧
      (∀ j, ∀ hj : j < ([(("R3" : String), (2 : Nat)), ("R2", 2)]).length,
        j < i → (List.foldl pickStep (999, "")
          [(("R3" : String), (2 : Nat)), ("R2", 2)]).1 <
          (([(("R3" : String), (2 : Nat)), ("R2", 2)]).get ⟨j, hj⟩).2) ∧
      (∀ j, ∀ hj : j < ([(("R3" : String), (2 : Nat)), ("R2", 2)]).length,
        (List.foldl pickStep (999, "")
          [(("R3" : String), (2 : Nat)), ("R2", 2)]).1 ≤
          (([(("R3" : String), (2 : Nat)), ("R2", 2)]).get ⟨j, hj⟩).2) ∧
      ∃ cv : CostRow,
        lk [("R3", [(0, 1)]), ("R2", [(1, 1)])]
          (([(("R3" : String), (2 : Nat)), ("R2", 2)]).get ⟨i, hi⟩).1 =
          some cv ∧
        cv.head?.map Prod.fst = some (0, "000H91m").1 :=
  forward_first_minimum "R1" "H9" "m" [("R3", [(0, 1)]), ("R2", [(1, 1)])]
    [("H9", [("R3", 1), ("R2", 1)]), ("R3", [("R1", 1)]),
      ("R2", [("R1", 1)])] [("R3", 2), ("R2", 2)] (0, "000H91m")
    (by decide) (by decide) (by decide) (by decide)

/-- C8 counterexample: with destination "H9" absent from both the cost
table and the routing table, forwarding does not fall back to a sentinel
cost: the lookup raises an uncaught `KeyError` (the embedded function
returns `none`), so the packet is not forwarded at all. -/
theorem forward_unknown_destination_counterexample :
    lk [("R2", [((0 : Nat), (5 : Nat))])] "H9" = none ∧
    lk [("R2", [("R1", (5 : Nat))]), ("R1", [("R1", 0)])] "H9" = none ∧
    forward_packet "R1" [("R2", [(0, 5)])]
      [("R2", [("R1", 5)]), ("R1", [("R1", 0)])]
      ⟨"H9", "data", "m"⟩ = none := by decide

/-- C8 amended: for any destination absent from both the cost table and
the routing table (and no neighbour under the empty name), processing
fails with an uncaught exception — the embedded `forward_packet` returns
`none` rather than forwarding toward a sentinel-cost candidate. -/
theorem forward_unknown_destination_raises (own dst pay : String)
    (cost_D : CostD) (t : Table) (h1 : lk cost_D dst = none)
    (h2 : lk t dst = none) (h3 : lk cost_D "" = none) :
    forward_packet own cost_D t ⟨dst, "data", pay⟩ = none :=
  forward_unknown_none own dst pay cost_D t h1 h2 h3

/-- Witness for the amended C8 theorem at a concrete unknown
destination. -/
theorem forward_unknown_destination_raises_witness :
    forward_packet "R1" [("R2", [(0, 5)])] [("R1", [("R1", 0)])]
      ⟨"H7", "data", "q"⟩ = none :=
  forward_unknown_destination_raises "R1" "H7" "q" [("R2", [(0, 5)])]
    [("R1", [("R1", 0)])] (by decide) (by decide) (by decide)

/-- C9 counterexample: a malformed byte string (tag "X") on interface 0
is not dropped-and-skipped: the whole pass aborts (`none`), and the
well-formed data packet waiting on interface 1 — which is forwarded fine
when interface 0 is empty — is never processed. -/
theorem malformed_packet_counterexample :
    from_byte_S "00005Xab" = none ∧
    process_queues "R1" [("H2", [(0, 3)])]
      [("R2", [("R1", 5)]), ("R1", [("R1", 0)])]
      [some "00005Xab", some "000H21m"] = none ∧
    process_queues "R1" [("H2", [(0, 3)])]
      [("R2", [("R1", 5)]), ("R1", [("R1", 0)])]
      [none, some "000H21m"] =
      some ([("R2", [("R1", 5)]), ("R1", [("R1", 0)])],
        [(0, "000H21m")]) :=
  ⟨by decide, by decide, by decide⟩

/-- C9 amended: a byte string that `from_byte_S` rejects (unrecognised
tag or malformed length) anywhere in the inbound queues makes the whole
`process_queues` pass fail — the exception is uncaught and fatal to the
pass, and no later interface is processed. -/
theorem malformed_packet_fatal (own : String) (cost_D : CostD) (t : Table)
    (inbound : List (Option String)) (s : String)
    (hs : some s ∈ inbound) (hbad : from_byte_S s = none) :
    process_queues own cost_D t inbound = none := by
  unfold process_queues
  refine foldlM_mem_none (pqStep own cost_D inbound.length) (some s) ?_
    inbound (t, []) hs
  intro st
  simp [pqStep, hbad]

/-- Witness for the amended C9 theorem at a concrete malformed packet. -/
theorem malformed_packet_fatal_witness :
    process_queues "R1" [] [("R1", [("R1", 0)])] [some "00009Zqq"] = none :=
  malformed_packet_fatal "R1" [] [("R1", [("R1", 0)])] [some "00009Zqq"]
    "00009Zqq" (by decide) (by decide)

/-- C10: every row of the routing table holds an entry for the owning
router's id: it does after construction (for cost tables with non-empty
cost rows), and a merge on tables satisfying the invariant — with the
received vector's rows all holding the sender's id, as any table
satisfying the invariant serialises to — succeeds (no lookup of
`table[x][own]` hits a missing key) and preserves the invariant. -/
theorem rows_contain_own_invariant (own r : String) (cost_D : CostD)
    (t rv : Table) (hne : ∀ p ∈ cost_D, p.2 ≠ [])
    (ht : RowsHave own t) (hrv : RowsHave r rv) :
    RowsHave own (initTable own cost_D) ∧
    ∃ t' b, merge own r t rv = some (t', b) ∧ RowsHave own t' :=
  ⟨initTable_rowsHave own cost_D hne, merge_total own r t rv ht hrv⟩

/-- Witness for C10 at the concrete two-router topology. -/
theorem rows_contain_own_invariant_witness :
    RowsHave "R1" (initTable "R1" [("R2", [(0, 5)])]) ∧
    ∃ t' b, merge "R1" "R2" [("R2", [("R1", 5)]), ("R1", [("R1", 0)])]
      [("H3", [("R2", 4)])] = some (t', b) ∧ RowsHave "R1" t' :=
  rows_contain_own_invariant "R1" "R2" [("R2", [(0, 5)])]
    [("R2", [("R1", 5)]), ("R1", [("R1", 0)])] [("H3", [("R2", 4)])]
    (by decide) (by decide) (by decide)
